import Mathlib

/-!
Verification of the timecode logic of the AvsP macro collection
(`Auto-crop.py` bundle; the relevant fragments are the "Trim timecode"
macro: `timecode_v1_to_v2`, the Trim-expression resolution, and the
re-basing cutter loop).

Timestamps are modelled as exact rationals (ℚ).  The Python code keeps
timestamps as strings with three decimals and re-parses them with
`float`; `'{0:.3f}'.format` is modelled by `round3`, rounding to a
multiple of `1/1000` (ties modelled upward; no claim depends on the tie
direction).  Python lists of timestamp lines become `List ℚ`, Python
`IndexError` becomes `Option`/`Except` failure, and Python's negative
indexing and slice clamping are modelled explicitly by `pyGet` and
`pySlice`.
-/

namespace AvsP

/-- Model of `'{0:.3f}'.format(x)` followed by `float(...)`: the nearest
multiple of `1/1000`. -/
def round3 (q : ℚ) : ℚ := (round (1000 * q) : ℤ) / 1000

/-- Python list indexing `l[i]`, including negative indices counting from
the end; `none` models `IndexError`. -/
def pyGet {α : Type} (l : List α) (i : Int) : Option α :=
  let j : Int := if i < 0 then (l.length : Int) + i else i
  if 0 ≤ j then l.get? j.toNat else none

/-- Normalisation of one Python slice bound against a list length:
negative bounds count from the end, and both ends clamp into `[0, len]`. -/
def pySliceNorm (len : Nat) (i : Int) : Nat :=
  if i < 0 then ((len : Int) + i).toNat else min i.toNat len

/-- Python slicing `l[a:b]` (never raises; out-of-range bounds clamp). -/
def pySlice {α : Type} (l : List α) (a b : Int) : List α :=
  (l.take (pySliceNorm l.length b)).drop (pySliceNorm l.length a)

/-- One `start,end,fps` record of a timecode v1 file. -/
structure Inter where
  s : Int
  e : Int
  fps : ℚ
  deriving DecidableEq, Repr

/-- The body of the interval loop of `timecode_v1_to_v2`
(`Trim timecode` variant): walk the parsed intervals, copying each one
and inserting a gap interval at fps `d` whenever the next interval does
not start at the previous end plus one; on falling off the end
(`IndexError` on `inters[i+1]`), append a trailing interval at fps `d`
when the requested `stop` frame lies past the last parsed interval. -/
def fillTail : Inter → List Inter → Int → ℚ → List Inter
  | a, [], stop, d => if stop > a.e then [a, ⟨a.e + 1, stop, d⟩] else [a]
  | a, b :: rest, stop, d =>
    a :: ((if b.s - a.e > 1 then [⟨a.e + 1, b.s - 1, d⟩] else []) ++ fillTail b rest stop d)

/-- The "Generate all intervals" phase of `timecode_v1_to_v2`: possibly a
leading interval at the default fps, then the parsed intervals with gaps
filled and a possible trailing interval.  `none` models the uncaught
`IndexError` of `inters[0]` on an empty interval list. -/
def allInters (inters : List Inter) (start stop : Int) (d : ℚ) : Option (List Inter) :=
  match inters with
  | [] => none
  | a :: rest =>
    some ((if start < a.s then [⟨start, a.s - 1, d⟩] else []) ++ fillTail a rest stop d)

/-- The per-interval emission of the "v1 -> v2" phase: for an interval
`[s, e]` at fps `f`, the timestamps `1000/f * i + offset` for
`i = 1, …, e - s + 1`, each formatted to three decimals. -/
def emitInter (I : Inter) (off : ℚ) : List ℚ :=
  (List.range (I.e - I.s + 1).toNat).map
    (fun i : Nat => round3 (1000 / I.fps * ((i : ℚ) + 1) + off))

/-- The "v1 -> v2" emission loop: after each interval the offset becomes
the last line emitted so far (`offset = float(v2[-1])`); `none` models
the `IndexError` of `v2[-1]` on an empty accumulator. -/
def emitLoop : List Inter → ℚ → List ℚ → Option (List ℚ)
  | [], _, acc => some acc
  | I :: rest, off, acc =>
    match (acc ++ emitInter I off).getLast? with
    | some l => emitLoop rest l (acc ++ emitInter I off)
    | none => none

/-- `timecode_v1_to_v2` on already-parsed intervals: generate all
intervals covering the requested range, then emit cumulative timestamps,
seeded with a literal `0.000` line exactly when the starting offset is
falsy (`v2 = [] if offset else ['0.000\n']`). -/
def timecode_v1_to_v2_core (inters : List Inter) (off : ℚ) (start stop : Int)
    (d : ℚ) : Option (List ℚ) :=
  (allInters inters start stop d).bind
    (fun ai => emitLoop ai off (if off = 0 then [0] else []))

/-- Python `str.strip()`. -/
def pyStrip (cs : List Char) : List Char :=
  ((cs.dropWhile Char.isWhitespace).reverse.dropWhile Char.isWhitespace).reverse

/-- Helper of `pySplitComma`. -/
def splitCommaAux : List Char → List Char → List (List Char)
  | [], acc => [acc.reverse]
  | c :: rest, acc =>
    if c = ',' then acc.reverse :: splitCommaAux rest [] else splitCommaAux rest (c :: acc)

/-- Python `str.split(',')` (keeps empty fields). -/
def pySplitComma (cs : List Char) : List (List Char) := splitCommaAux cs []

/-- Helper of `pySplitWs`. -/
def splitWsAux : List Char → List Char → List (List Char)
  | [], acc => if acc.isEmpty then [] else [acc.reverse]
  | c :: rest, acc =>
    if c.isWhitespace then
      if acc.isEmpty then splitWsAux rest [] else acc.reverse :: splitWsAux rest []
    else splitWsAux rest (c :: acc)

/-- Python `str.split()` with no argument (splits on whitespace runs,
drops empty fields). -/
def pySplitWs (cs : List Char) : List (List Char) := splitWsAux cs []

/-- Value of a run of decimal digits. -/
def digitsVal (cs : List Char) : Nat :=
  cs.foldl (fun n c => n * 10 + (c.toNat - '0'.toNat)) 0

/-- A nonempty all-digit run, else `none`. -/
def readDigits (cs : List Char) : Option Nat :=
  if cs ≠ [] ∧ cs.all Char.isDigit then some (digitsVal cs) else none

/-- Model of Python `int(s)`: optional surrounding whitespace, optional
sign, at least one decimal digit; `none` models `ValueError`. -/
def pyInt (cs : List Char) : Option Int :=
  match pyStrip cs with
  | '-' :: rest => (readDigits rest).map (fun n => -(n : Int))
  | '+' :: rest => (readDigits rest).map (fun n => (n : Int))
  | rest => (readDigits rest).map (fun n => (n : Int))

/-- Helper of `pyFloat`: an unsigned plain decimal literal
(`digits`, `digits.digits`, `digits.` or `.digits`). -/
def pyFloatUnsigned (cs : List Char) : Option ℚ :=
  let ip := cs.takeWhile Char.isDigit
  match cs.dropWhile Char.isDigit with
  | [] => if ip.isEmpty then none else some ((digitsVal ip : ℚ))
  | '.' :: frac =>
    if frac.all Char.isDigit && !(ip.isEmpty && frac.isEmpty) then
      some ((digitsVal ip : ℚ) + (digitsVal frac : ℚ) / (10 : ℚ) ^ frac.length)
    else none
  | _ => none

/-- Model of Python `float(s)` on the plain decimal literals that occur
in timecode files (optional whitespace, optional sign, decimal digits
with an optional fractional part); `none` models `ValueError`. -/
def pyFloat (cs : List Char) : Option ℚ :=
  match pyStrip cs with
  | '-' :: rest => (pyFloatUnsigned rest).map (fun q => -q)
  | '+' :: rest => pyFloatUnsigned rest
  | rest => pyFloatUnsigned rest

/-- The `assume` header handling of `timecode_v1_to_v2`:
`try: default = float(lines[0].split()[1]); i = 1 except IndexError: i = 0`.
Returns the default fps to use and the index of the first interval line;
the error value carries the offending token of an uncaught `ValueError`. -/
def parseAssume (lines : List String) (d : ℚ) : Except String (ℚ × Nat) :=
  match lines with
  | [] => .ok (d, 0)
  | l :: _ =>
    match (pySplitWs l.data).get? 1 with
    | none => .ok (d, 0)
    | some tok =>
      match pyFloat tok with
      | some f => .ok (f, 1)
      | none => .error (String.mk tok)

/-- Parsing one interval record:
`[int(line[0]), int(line[1]), float(line[2])]` over
`line.strip().split(',')`, evaluated left to right.  The error value
carries the offending content, as Python's uncaught `ValueError` message
does (`invalid literal for int() with base 10: 'a'`); a line with fewer
than three fields is an uncaught `IndexError`, reported as the line. -/
def parseInterLine (line : String) : Except String Inter :=
  let fields := pySplitComma (pyStrip line.data)
  match fields.get? 0 with
  | none => .error line
  | some f0 =>
    match pyInt f0 with
    | none => .error (String.mk f0)
    | some a =>
      match fields.get? 1 with
      | none => .error line
      | some f1 =>
        match pyInt f1 with
        | none => .error (String.mk f1)
        | some b =>
          match fields.get? 2 with
          | none => .error line
          | some f2 =>
            match pyFloat f2 with
            | none => .error (String.mk f2)
            | some c => .ok ⟨a, b, c⟩

/-- `timecode_v1_to_v2` of the `Trim timecode` macro, from the raw body
lines of a v1 file (header line excluded, as in the source). -/
def timecode_v1_to_v2 (lines : List String) (off : ℚ) (start stop : Int)
    (d : ℚ) : Except String (List ℚ) := do
  let (d2, i) ← parseAssume lines d
  let inters ← (lines.drop i).mapM parseInterLine
  match timecode_v1_to_v2_core inters off start stop d2 with
  | some v2 => .ok v2
  | none => .error "IndexError"

/-- Trim resolution of the `Trim timecode` macro and of `parse_trims`:
`(int(t0), int(t1) if int(t1) > 0 else int(t0) - int(t1) - 1)`. -/
def resolveTrim (s : Int) (t : Int) : Int × Int :=
  (s, if 0 < t then t else s - t - 1)

/-- One iteration of the cutter's offset loop: read the trim's start
timestamp `lines[trim[0]]`; read its end timestamp `lines[trim[1] + 1]`,
extrapolating `2*lines[-1] - lines[-2]` and appending it when that index
is past the end; then emit the slice `lines[trim[0]+1 : trim[1]+2]`
shifted down by `gap = start - prev_end` and formatted to three
decimals.  Returns the (possibly extended) timestamp list, the new
`prev_end`, and the emitted chunk; `none` models an uncaught
`IndexError`. -/
def cutStep (lines : List ℚ) (prevEnd : ℚ) (t : Int × Int) :
    Option (List ℚ × ℚ × List ℚ) :=
  match pyGet lines t.1 with
  | none => none
  | some tst =>
    match
      (match pyGet lines (t.2 + 1) with
       | some v => some (v, lines)
       | none =>
         match pyGet lines (-1), pyGet lines (-2) with
         | some a, some b => some (2 * a - b, lines ++ [2 * a - b])
         | _, _ => none) with
    | none => none
    | some (tet, lines2) =>
      some (lines2, tet - (tst - prevEnd),
        (pySlice lines2 (t.1 + 1) (t.2 + 2)).map (fun q => round3 (q - (tst - prevEnd))))

/-- The cutter's loop over all trims, threading the timestamp list and
`prev_end` and concatenating the emitted chunks. -/
def cutLoop : List (Int × Int) → List ℚ → ℚ → Option (List ℚ)
  | [], _, _ => some []
  | t :: rest, lines, prevEnd =>
    match cutStep lines prevEnd t with
    | none => none
    | some (lines2, pe2, chunk) =>
      match cutLoop rest lines2 pe2 with
      | none => none
      | some tail => some (chunk ++ tail)

/-- The `Trim timecode` cutter: output timestamps of the new timecode,
beginning with the literal `0.000` line (the `# timecode format v2`
header line is not modelled as data). -/
def cutTimecode (lines : List ℚ) (trims : List (Int × Int)) : Option (List ℚ) :=
  (cutLoop trims lines 0).map (fun body => 0 :: body)

end AvsP

namespace AvsP

/-! ### Helper lemmas about `pyGet` -/

theorem pyGet_nonneg {α : Type} (l : List α) (i : Int) (h : 0 ≤ i) :
    pyGet l i = l.get? i.toNat := by
  simp [pyGet, not_lt.mpr h, h]

theorem pyGet_out {α : Type} (l : List α) (i : Int) (h : (l.length : Int) ≤ i) :
    pyGet l i = none := by
  have h0 : 0 ≤ i := le_trans (by positivity) h
  rw [pyGet_nonneg l i h0]
  rw [List.get?_eq_none]
  omega

end AvsP

namespace AvsP

theorem pyGet_neg {α : Type} (l : List α) (i : Int) (hi : i < 0)
    (h : 0 ≤ (l.length : Int) + i) :
    pyGet l i = l.get? ((l.length : Int) + i).toNat := by
  simp [pyGet, hi, h]

/-! ### C6 / C10: Trim resolution -/

/-- C6: for every trim expression `Trim(s, e)` with negative `e`, the trim
parsers resolve it to the absolute pair `(s, s - e - 1)`. -/
theorem claim_C6_negative_end_resolution (s t : Int) (h : t < 0) :
    resolveTrim s t = (s, s - t - 1) := by
  simp [resolveTrim, not_lt.mpr (le_of_lt h)]

/-- Witness for C6 at `Trim(100, -50)`: the resolved end frame is
`100 - (-50) - 1 = 149`. -/
theorem claim_C6_witness :
    ((-50 : Int) < 0) ∧ resolveTrim 100 (-50) = (100, 149) := by
  refine ⟨by norm_num, ?_⟩
  rw [claim_C6_negative_end_resolution 100 (-50) (by norm_num)]
  norm_num

/-- C10: `Trim(s, 0)` takes the relative-end branch (the test is
`end > 0`, not `end < 0`), resolving to the inverted pair `(s, s - 1)`
rather than treating `0` as an absolute end frame. -/
theorem claim_C10_zero_end_resolution (s : Int) :
    resolveTrim s 0 = (s, s - 1) := by
  simp [resolveTrim]

/-! ### C9: malformed v1 interval line -/

/-- Interval lines that all parse make `mapM` succeed. -/
theorem mapM_parse_ok (pre : List String)
    (hpre : ∀ l ∈ pre, ∃ I, parseInterLine l = Except.ok I) :
    ∃ L, pre.mapM parseInterLine = Except.ok L := by
  induction pre with
  | nil => exact ⟨[], rfl⟩
  | cons x xs ih =>
    obtain ⟨I, hI⟩ := hpre x (List.mem_cons_self _ _)
    obtain ⟨L, hL⟩ := ih (fun l hl => hpre l (List.mem_cons_of_mem _ hl))
    refine ⟨I :: L, ?_⟩
    rw [List.mapM_cons, hI, hL]
    rfl

/-- The first malformed line makes `mapM` fail with its parse error. -/
theorem mapM_parse_error (l : String) (post : List String) (msg : String)
    (hbad : parseInterLine l = Except.error msg) :
    ∀ pre : List String,
    (∀ l' ∈ pre, ∃ I, parseInterLine l' = Except.ok I) →
    (pre ++ l :: post).mapM parseInterLine = Except.error msg := by
  intro pre
  induction pre with
  | nil =>
    intro _
    rw [List.nil_append, List.mapM_cons, hbad]
    rfl
  | cons x xs ih =>
    intro hpre
    obtain ⟨I, hI⟩ := hpre x (List.mem_cons_self _ _)
    rw [List.cons_append, List.mapM_cons, hI,
      ih (fun l' hl' => hpre l' (List.mem_cons_of_mem _ hl'))]
    rfl

/-- C9: for every malformed v1 interval line — one whose frame bounds
or fps fail to parse, i.e. `parseInterLine` reports offending content
`msg` (`int`/`float` raise `ValueError` naming the bad field, an
`IndexError` on a short line names the line) — in any position of the
interval region (after the `assume` header handling, preceded by
well-formed lines), and for every offset, frame range and default fps,
`timecode_v1_to_v2` fails with exactly that error, never returning a
(zero-length) timestamp list. -/
theorem claim_C9_malformed_line_fails (lines pre post : List String)
    (l : String) (off : ℚ) (start stop : Int) (d d2 : ℚ) (i : Nat)
    (msg : String)
    (hassume : parseAssume lines d = Except.ok (d2, i))
    (hsplit : lines.drop i = pre ++ l :: post)
    (hpre : ∀ l' ∈ pre, ∃ I, parseInterLine l' = Except.ok I)
    (hbad : parseInterLine l = Except.error msg) :
    timecode_v1_to_v2 lines off start stop d = Except.error msg := by
  unfold timecode_v1_to_v2
  rw [hassume]
  show (do
    let inters ← (lines.drop i).mapM parseInterLine
    match timecode_v1_to_v2_core inters off start stop d2 with
    | some v2 => Except.ok v2
    | none => Except.error "IndexError") = Except.error msg
  rw [hsplit, mapM_parse_error l post msg hbad pre hpre]
  rfl

/-- Witness for C9 at the spec's example line `"a,b,c"`: the field `a`
fails `int` parsing and is named in the error. -/
theorem claim_C9_witness :
    timecode_v1_to_v2 ["a,b,c"] 0 0 5 24 = Except.error "a" :=
  claim_C9_malformed_line_fails ["a,b,c"] [] [] "a,b,c" 0 0 5 24 24 0 "a"
    rfl rfl (by simp) rfl

/-! ### C3: concrete gap-removal run -/

/-- Counterexample to C3 as stated: on timestamps
`[0,10,20,30,40,50]` ms and trims `[(0,1),(3,4)]` the cutter does NOT
emit exactly `0.000, 10.000, 20.000, 30.000` — it emits one timestamp
per trimmed frame *after* the seed line, five values in total. -/
theorem claim_C3_counterexample :
    cutTimecode [0, 10, 20, 30, 40, 50] [(0, 1), (3, 4)] ≠ some [0, 10, 20, 30] := by
  have h : cutTimecode [0, 10, 20, 30, 40, 50] [(0, 1), (3, 4)]
      = some [0, 10, 20, 30, 40] := by
    simp only [cutTimecode, cutLoop, cutStep, pyGet, pySlice, pySliceNorm]
    simp
    norm_num [round3, round_eq]
  rw [h]
  simp

/-- C3 amended: on timestamps `[0,10,20,30,40,50]` ms and trims
`[(0,1),(3,4)]` the cutter emits exactly the re-based sequence
`0.000, 10.000, 20.000, 30.000, 40.000` and nothing more. -/
theorem claim_C3_amended_gap_removal :
    cutTimecode [0, 10, 20, 30, 40, 50] [(0, 1), (3, 4)]
      = some [0, 10, 20, 30, 40] := by
  simp only [cutTimecode, cutLoop, cutStep, pyGet, pySlice, pySliceNorm]
  simp
  norm_num [round3, round_eq]

/-! ### C8: trim range past the end of the timestamp list -/

/-- Counterexample to C8 as stated: the trim `(0, 4)` extends two frames
past the three-entry timestamp list `[0,10,20]` (beyond the
one-entry-short extrapolation case), yet the cutter does not fail: it
extrapolates a single entry and silently emits a truncated slice. -/
theorem claim_C8_counterexample :
    cutTimecode [0, 10, 20] [(0, 4)] = some [0, 10, 20, 30] ∧
      cutTimecode [0, 10, 20] [(0, 4)] ≠ none := by
  have h : cutTimecode [0, 10, 20] [(0, 4)] = some [0, 10, 20, 30] := by
    simp only [cutTimecode, cutLoop, cutStep, pyGet, pySlice, pySliceNorm]
    simp
    norm_num [round3, round_eq]
  exact ⟨h, by rw [h]; simp⟩

/- The amended C8 theorem (`claim_C8_amended_end_overrun_truncates`)
appears near the end of the file, after the `pyGet`/`pySliceNorm`
helper lemmas it relies on. -/

end AvsP

namespace AvsP

/-! ### C7: one-entry-short extrapolation -/

/-- C7: when a trim needs the timestamp one entry past the end of the
timestamp list (`trim[1] + 1 = len`), the cutter extrapolates the missing
final timestamp as `2*last − second_last`, appends it to the list before
indexing past the end, and uses it as the trim's end time (the new
`prev_end` is that value minus the gap). -/
theorem claim_C7_extrapolated_end (lines : List ℚ) (pe : ℚ) (s e : Int)
    (hs : 0 ≤ s) (hse : s ≤ e) (he : e + 1 = (lines.length : Int))
    (h2 : 2 ≤ lines.length) :
    ∃ a b tst, pyGet lines (-1) = some a ∧ pyGet lines (-2) = some b ∧
      pyGet lines s = some tst ∧
      cutStep lines pe (s, e) = some (lines ++ [2 * a - b], (2 * a - b) - (tst - pe),
        (pySlice (lines ++ [2 * a - b]) (s + 1) (e + 2)).map
          (fun q => round3 (q - (tst - pe)))) := by
  have h1 : lines.length - 1 < lines.length := by omega
  have hb1 : lines.length - 2 < lines.length := by omega
  have hsn : s.toNat < lines.length := by omega
  have hga : pyGet lines (-1) = some (lines.get ⟨lines.length - 1, h1⟩) := by
    rw [pyGet_neg lines (-1) (by norm_num) (by omega)]
    rw [show ((lines.length : Int) + (-1)).toNat = lines.length - 1 by omega]
    exact List.get?_eq_get h1
  have hgb : pyGet lines (-2) = some (lines.get ⟨lines.length - 2, hb1⟩) := by
    rw [pyGet_neg lines (-2) (by norm_num) (by omega)]
    rw [show ((lines.length : Int) + (-2)).toNat = lines.length - 2 by omega]
    exact List.get?_eq_get hb1
  have hgt : pyGet lines s = some (lines.get ⟨s.toNat, hsn⟩) := by
    rw [pyGet_nonneg lines s hs]
    exact List.get?_eq_get hsn
  have hgn : pyGet lines (e + 1) = none := pyGet_out lines (e + 1) (by omega)
  refine ⟨_, _, _, hga, hgb, hgt, ?_⟩
  simp [cutStep, hgt, hgn, hga, hgb]

/-- Witness for C7: `[0, 10]` with trim `(0, 1)` extrapolates the end
time `2*10 − 0 = 20`. -/
theorem claim_C7_witness :
    ∃ a b tst, pyGet ([0, 10] : List ℚ) (-1) = some a ∧
      pyGet ([0, 10] : List ℚ) (-2) = some b ∧
      pyGet ([0, 10] : List ℚ) 0 = some tst ∧
      cutStep [0, 10] 0 (0, 1) = some ([0, 10] ++ [2 * a - b], (2 * a - b) - (tst - 0),
        (pySlice ([0, 10] ++ [2 * a - b]) (0 + 1) (1 + 2)).map
          (fun q => round3 (q - (tst - 0)))) :=
  claim_C7_extrapolated_end [0, 10] 0 0 1 (by norm_num) (by norm_num)
    (by norm_num) (by norm_num)

end AvsP

namespace AvsP

/-! ### C2: whole-timecode round trip -/

/-- C2: a full v2 timestamp list (`N + 1` boundary timestamps for the
`N` frames of the timecode, each representable at three decimals) whose
first timestamp is `0`, re-based over the single trim `(0, N-1)`
covering the whole timecode, is returned unchanged. -/
theorem claim_C2_roundtrip_identity (lines : List ℚ) (N : Nat)
    (h1 : lines.length = N + 1) (h2 : lines.head? = some 0)
    (h3 : ∀ q ∈ lines, round3 q = q) :
    cutTimecode lines [(0, (N : Int) - 1)] = some lines := by
  match lines, h2 with
  | q0 :: tail, h2 =>
    have hq0 : q0 = 0 := by simpa using h2
    subst hq0
    have hlen : (0 :: tail).length = N + 1 := h1
    have hN : tail.length = N := by simpa using hlen
    have hg0 : pyGet (0 :: tail) (0 : Int) = some 0 := by
      rw [pyGet_nonneg _ _ le_rfl]; rfl
    have hgN : pyGet (0 :: tail) ((N : Int) - 1 + 1) = (0 :: tail).get? N := by
      rw [sub_add_cancel, pyGet_nonneg _ _ (by positivity)]
      norm_num
    have hNlt : N < (0 :: tail).length := by omega
    have hgN2 : pyGet (0 :: tail) ((N : Int) - 1 + 1) = some ((0 :: tail).get ⟨N, hNlt⟩) := by
      rw [hgN]; exact List.get?_eq_get hNlt
    have hslice : pySlice (0 :: tail) (0 + 1) ((N : Int) - 1 + 2) = tail := by
      have hb : (N : Int) - 1 + 2 = ((N + 1 : Nat) : Int) := by push_cast; ring
      rw [pySlice, hb]
      rw [show pySliceNorm (0 :: tail).length ((N + 1 : Nat) : Int) = N + 1 by
        simp [pySliceNorm, hlen]
        omega]
      rw [show pySliceNorm (0 :: tail).length (0 + 1) = 1 by
        simp [pySliceNorm, hlen]]
      rw [show (0 :: tail).take (N + 1) = 0 :: tail from
        List.take_of_length_le (le_of_eq hlen)]
      rfl
    have hmap : tail.map (fun q => round3 (q - (0 - 0))) = tail := by
      have := List.map_congr_left (l := tail)
        (f := fun q => round3 (q - (0 - 0))) (g := id) ?_
      · simpa using this
      · intro q hq
        simp [h3 q (List.mem_cons_of_mem _ hq)]
    simp only [cutTimecode, cutLoop, cutStep, hg0, hgN2, hslice, hmap]
    simp [hmap]

end AvsP

namespace AvsP

/-- Witness for C2: the three-entry timecode `[0, 10, 20]` (two frames)
trimmed over `(0, 1)` is returned unchanged. -/
theorem claim_C2_witness :
    cutTimecode [0, 10, 20] [(0, 1)] = some [0, 10, 20] := by
  have h3 : ∀ q ∈ ([0, 10, 20] : List ℚ), round3 q = q := by
    intro q hq
    simp only [List.mem_cons, List.not_mem_nil, or_false] at hq
    rcases hq with rfl | rfl | rfl <;> norm_num [round3, round_eq]
  have h := claim_C2_roundtrip_identity [0, 10, 20] 2 (by norm_num) (by norm_num) h3
  simpa using h

end AvsP


namespace AvsP

/-! ### C4: interval gap filling -/

/-- Main induction for the interval loop: over well-formed intervals,
`fillTail` keeps the first interval first, turns the last into the
requested trailing fill exactly when `stop` lies past it, produces an
adjacent chain of nonempty intervals, and only adds intervals at
fps `d`. -/
theorem fillTail_props (rest : List Inter) :
    ∀ (a : Inter) (stop : Int) (d : ℚ),
    List.Chain' (fun I J => I.e < J.s) (a :: rest) →
    (∀ I ∈ a :: rest, I.s ≤ I.e) →
    ∃ last0,
      (a :: rest).getLast? = some last0 ∧
      (fillTail a rest stop d).head? = some a ∧
      (fillTail a rest stop d).getLast? =
        some (if last0.e < stop then ⟨last0.e + 1, stop, d⟩ else last0) ∧
      List.Chain' (fun I J => J.s = I.e + 1) (fillTail a rest stop d) ∧
      (∀ I ∈ fillTail a rest stop d, I.s ≤ I.e) ∧
      (∀ I ∈ fillTail a rest stop d, I ∈ a :: rest ∨ I.fps = d) := by
  induction rest with
  | nil =>
    intro a stop d _ hwf
    refine ⟨a, rfl, ?_, ?_, ?_, ?_, ?_⟩ <;> by_cases h : a.e < stop
    · simp [fillTail, h]
    · simp [fillTail, h]
    · simp [fillTail, h]
    · simp [fillTail, h]
    · simp only [fillTail, if_pos (show stop > a.e from h)]
      exact List.chain'_cons.mpr ⟨rfl, List.chain'_singleton _⟩
    · simp [fillTail, h]
    · intro I hI
      simp only [fillTail, if_pos (show stop > a.e from h)] at hI
      rcases List.mem_cons.mp hI with rfl | hI2
      · exact hwf I (List.mem_cons_self _ _)
      · rcases List.mem_cons.mp hI2 with rfl | hI3
        · show a.e + 1 ≤ stop
          omega
        · cases hI3
    · intro I hI
      simp only [fillTail, if_neg (show ¬ stop > a.e from h)] at hI
      rcases List.mem_cons.mp hI with rfl | hI2
      · exact hwf I (List.mem_cons_self _ _)
      · cases hI2
    · intro I hI
      simp only [fillTail, if_pos (show stop > a.e from h)] at hI
      rcases List.mem_cons.mp hI with rfl | hI2
      · exact Or.inl (List.mem_cons_self _ _)
      · rcases List.mem_cons.mp hI2 with rfl | hI3
        · exact Or.inr rfl
        · cases hI3
    · intro I hI
      simp only [fillTail, if_neg (show ¬ stop > a.e from h)] at hI
      rcases List.mem_cons.mp hI with rfl | hI2
      · exact Or.inl (List.mem_cons_self _ _)
      · cases hI2
  | cons b rest' ih =>
    intro a stop d hchain hwf
    have hab : a.e < b.s := (List.chain'_cons.mp hchain).1
    have hc2 : List.Chain' (fun I J => I.e < J.s) (b :: rest') :=
      (List.chain'_cons.mp hchain).2
    have hwf2 : ∀ I ∈ b :: rest', I.s ≤ I.e :=
      fun I hI => hwf I (List.mem_cons_of_mem a hI)
    obtain ⟨last0, hl0, hhd, hlast, hch, hwf3, hmem⟩ := ih b stop d hc2 hwf2
    have hFTne : fillTail b rest' stop d ≠ [] := by
      intro hnil
      rw [hnil] at hhd
      cases hhd
    refine ⟨last0, ?_, ?_, ?_, ?_, ?_, ?_⟩
    · rw [List.getLast?_cons_cons]
      exact hl0
    · simp [fillTail]
    · have h2 : fillTail a (b :: rest') stop d =
          [a] ++ ((if b.s - a.e > 1 then [(⟨a.e + 1, b.s - 1, d⟩ : Inter)] else []) ++
            fillTail b rest' stop d) := rfl
      rw [h2, List.getLast?_append, List.getLast?_append, hlast]
      rfl
    · show List.Chain' _ (a :: (_ ++ fillTail b rest' stop d))
      rw [List.chain'_cons']
      constructor
      · intro y hy
        by_cases hgap : b.s - a.e > 1
        · rw [if_pos hgap] at hy
          simp only [List.cons_append, List.head?_cons, Option.mem_def,
            Option.some.injEq] at hy
          subst hy
          rfl
        · rw [if_neg hgap] at hy
          rw [List.nil_append, hhd] at hy
          simp only [Option.mem_def, Option.some.injEq] at hy
          subst hy
          omega
      · by_cases hgap : b.s - a.e > 1
        · rw [if_pos hgap, List.chain'_append]
          refine ⟨List.chain'_singleton _, hch, ?_⟩
          intro x hx y hy
          simp only [List.getLast?_singleton, Option.mem_def, Option.some.injEq] at hx
          rw [hhd] at hy
          simp only [Option.mem_def, Option.some.injEq] at hy
          subst hx
          subst hy
          show b.s = b.s - 1 + 1
          omega
        · rw [if_neg hgap, List.nil_append]
          exact hch
    · intro I hI
      simp only [fillTail] at hI
      rcases List.mem_cons.mp hI with rfl | hI2
      · exact hwf I (List.mem_cons_self _ _)
      · rcases List.mem_append.mp hI2 with hI3 | hI4
        · by_cases hgap : b.s - a.e > 1
          · rw [if_pos hgap] at hI3
            rcases List.mem_cons.mp hI3 with rfl | hI5
            · show a.e + 1 ≤ b.s - 1
              omega
            · cases hI5
          · rw [if_neg hgap] at hI3
            cases hI3
        · exact hwf3 I hI4
    · intro I hI
      simp only [fillTail] at hI
      rcases List.mem_cons.mp hI with rfl | hI2
      · exact Or.inl (List.mem_cons_self _ _)
      · rcases List.mem_append.mp hI2 with hI3 | hI4
        · by_cases hgap : b.s - a.e > 1
          · rw [if_pos hgap] at hI3
            rcases List.mem_cons.mp hI3 with rfl | hI5
            · exact Or.inr rfl
            · cases hI5
          · rw [if_neg hgap] at hI3
            cases hI3
        · rcases hmem I hI4 with hI5 | hI5
          · exact Or.inl (List.mem_cons_of_mem a hI5)
          · exact Or.inr hI5

end AvsP

namespace AvsP

/-- An adjacent chain of intervals covers every frame between the start
of its first interval and the end of its last. -/
theorem chain_covers (res : List Inter) :
    ∀ (hd lst : Inter) (f : Int),
    res.head? = some hd → res.getLast? = some lst →
    List.Chain' (fun I J => J.s = I.e + 1) res →
    hd.s ≤ f → f ≤ lst.e →
    ∃ I, I ∈ res ∧ I.s ≤ f ∧ f ≤ I.e := by
  induction res with
  | nil =>
    intro hd lst f h
    cases h
  | cons I rest ih =>
    intro hd lst f hh hl hc hsf hfl
    have hdI : I = hd := by
      simp only [List.head?_cons, Option.some.injEq] at hh
      exact hh
    subst hdI
    by_cases hfe : f ≤ I.e
    · exact ⟨I, List.mem_cons_self _ _, hsf, hfe⟩
    · cases rest with
      | nil =>
        simp only [List.getLast?_singleton, Option.some.injEq] at hl
        subst hl
        omega
      | cons J rest' =>
        have hJs : J.s = I.e + 1 := (List.chain'_cons.mp hc).1
        have hl2 : (J :: rest').getLast? = some lst := by
          rw [List.getLast?_cons_cons] at hl
          exact hl
        obtain ⟨K, hK, hK1, hK2⟩ :=
          ih J lst f rfl hl2 (List.chain'_cons.mp hc).2 (by omega) hfl
        exact ⟨K, List.mem_cons_of_mem I hK, hK1, hK2⟩

/-- C4: for a well-formed v1 interval list (ordered, non-overlapping,
nonempty intervals) and a requested range `[start, stop]`, the interval
generation phase of `timecode_v1_to_v2` prepends a synthetic leading
interval at the default fps when `start` precedes the first interval,
appends a synthetic trailing interval at the default fps when `stop`
exceeds the last, fills every gap so that consecutive intervals are
adjacent, only ever adds intervals at the default fps, and the result
covers the requested range contiguously. -/
theorem claim_C4_gap_filling (inters : List Inter) (start stop : Int) (d : ℚ)
    (first lastI : Inter)
    (hhd : inters.head? = some first) (hlst : inters.getLast? = some lastI)
    (hchain : List.Chain' (fun I J => I.e < J.s) inters)
    (hwf : ∀ I ∈ inters, I.s ≤ I.e) :
    ∃ res, allInters inters start stop d = some res ∧
      (start < first.s → res.head? = some ⟨start, first.s - 1, d⟩) ∧
      (lastI.e < stop → res.getLast? = some ⟨lastI.e + 1, stop, d⟩) ∧
      List.Chain' (fun I J => J.s = I.e + 1) res ∧
      (∀ I ∈ res, I.s ≤ I.e) ∧
      (∀ I ∈ res, I ∈ inters ∨ I.fps = d) ∧
      (∀ f : Int, start ≤ f → f ≤ stop → ∃ I, I ∈ res ∧ I.s ≤ f ∧ f ≤ I.e) := by
  match inters, hhd with
  | a :: rest, hhd =>
    have ha : a = first := by
      simp only [List.head?_cons, Option.some.injEq] at hhd
      exact hhd
    subst ha
    obtain ⟨last0, hl0, hhdF, hlastF, hchF, hwfF, hmemF⟩ :=
      fillTail_props rest a stop d hchain hwf
    have hlast0 : lastI = last0 := by
      rw [hl0] at hlst
      exact ((Option.some.injEq _ _).mp hlst).symm
    subst hlast0
    have hFTne : fillTail a rest stop d ≠ [] := by
      intro hnil
      rw [hnil] at hhdF
      cases hhdF
    by_cases hlead : start < a.s
    · refine ⟨⟨start, a.s - 1, d⟩ :: fillTail a rest stop d, ?_, ?_, ?_, ?_, ?_, ?_, ?_⟩
      · simp [allInters, hlead]
      · intro _
        rfl
      · intro htrail
        have h2 : (⟨start, a.s - 1, d⟩ :: fillTail a rest stop d : List Inter) =
            [⟨start, a.s - 1, d⟩] ++ fillTail a rest stop d := rfl
        rw [h2, List.getLast?_append, hlastF, if_pos htrail]
        rfl
      · rw [List.chain'_cons']
        constructor
        · intro y hy
          rw [hhdF] at hy
          simp only [Option.mem_def, Option.some.injEq] at hy
          subst hy
          show a.s = a.s - 1 + 1
          omega
        · exact hchF
      · intro I hI
        rcases List.mem_cons.mp hI with rfl | hI2
        · show start ≤ a.s - 1
          omega
        · exact hwfF I hI2
      · intro I hI
        rcases List.mem_cons.mp hI with rfl | hI2
        · exact Or.inr rfl
        · rcases hmemF I hI2 with h | h
          · exact Or.inl h
          · exact Or.inr h
      · intro f hf1 hf2
        have hres1 : ((⟨start, a.s - 1, d⟩ : Inter) :: fillTail a rest stop d).head? =
            some ⟨start, a.s - 1, d⟩ := rfl
        have hres2 : ((⟨start, a.s - 1, d⟩ : Inter) :: fillTail a rest stop d).getLast? =
            some (if lastI.e < stop then ⟨lastI.e + 1, stop, d⟩ else lastI) := by
          have h2 : (⟨start, a.s - 1, d⟩ :: fillTail a rest stop d : List Inter) =
              [⟨start, a.s - 1, d⟩] ++ fillTail a rest stop d := rfl
          rw [h2, List.getLast?_append, hlastF]
          rfl
        have hchain2 : List.Chain' (fun I J => J.s = I.e + 1)
            (⟨start, a.s - 1, d⟩ :: fillTail a rest stop d) := by
          rw [List.chain'_cons']
          refine ⟨?_, hchF⟩
          intro y hy
          rw [hhdF] at hy
          simp only [Option.mem_def, Option.some.injEq] at hy
          subst hy
          show a.s = a.s - 1 + 1
          omega
        apply chain_covers _ _ _ f hres1 hres2 hchain2 hf1
        by_cases ht : lastI.e < stop
        · rw [if_pos ht]
          exact hf2
        · rw [if_neg ht]
          omega
    · refine ⟨fillTail a rest stop d, ?_, ?_, ?_, hchF, hwfF, hmemF, ?_⟩
      · simp [allInters, hlead]
      · intro h
        exact absurd h hlead
      · intro htrail
        rw [hlastF, if_pos htrail]
      · intro f hf1 hf2
        apply chain_covers _ _ _ f hhdF
          (by rw [hlastF]) hchF (by omega)
        by_cases ht : lastI.e < stop
        · rw [if_pos ht]
          exact hf2
        · rw [if_neg ht]
          omega

end AvsP

namespace AvsP

/-- Witness for C4: the single interval `(2, 3, 24)` with requested
range `[0, 5]` and default fps `30` gains a leading fill `(0, 1, 30)`
and a trailing fill `(4, 5, 30)`, covering `[0, 5]` contiguously. -/
theorem claim_C4_witness :
    ∃ res, allInters [⟨2, 3, 24⟩] 0 5 30 = some res ∧
      res.head? = some ⟨0, 1, 30⟩ ∧
      res.getLast? = some ⟨4, 5, 30⟩ ∧
      List.Chain' (fun I J => J.s = I.e + 1) res ∧
      (∀ I ∈ res, I.s ≤ I.e) ∧
      (∀ I ∈ res, I ∈ [(⟨2, 3, 24⟩ : Inter)] ∨ I.fps = 30) ∧
      (∀ f : Int, 0 ≤ f → f ≤ 5 → ∃ I, I ∈ res ∧ I.s ≤ f ∧ f ≤ I.e) := by
  obtain ⟨res, h1, h2, h3, h4, h5, h6, h7⟩ :=
    claim_C4_gap_filling [⟨2, 3, 24⟩] 0 5 30 ⟨2, 3, 24⟩ ⟨2, 3, 24⟩ rfl rfl
      (by simp)
      (by
        intro I hI
        simp only [List.mem_singleton] at hI
        subst hI
        show (2 : Int) ≤ 3
        norm_num)
  refine ⟨res, h1, ?_, ?_, h4, h5, h6, h7⟩
  · have := h2 (show (0 : Int) < 2 by norm_num)
    simpa using this
  · have := h3 (show (3 : Int) < 5 by norm_num)
    simpa using this

end AvsP

namespace AvsP

/-! ### C5: constant-fps conversion -/

/-- Three-decimal formatting moves a value by at most half a
thousandth. -/
theorem round3_err (q : ℚ) : |round3 q - q| ≤ 1 / 2000 := by
  have h := abs_sub_round (1000 * q)
  have h2 : round3 q - q = ((round (1000 * q) : ℚ) - 1000 * q) / 1000 := by
    unfold round3
    ring
  rw [h2, abs_div, abs_of_pos (show (0 : ℚ) < 1000 by norm_num), abs_sub_comm]
  linarith

/-- Three-decimal formatting is monotone. -/
theorem round3_mono {a b : ℚ} (h : a ≤ b) : round3 a ≤ round3 b := by
  unfold round3
  have hr : round (1000 * a) ≤ round (1000 * b) := by
    rw [round_eq, round_eq]
    exact Int.floor_mono (by linarith)
  have hrq : ((round (1000 * a) : ℤ) : ℚ) ≤ ((round (1000 * b) : ℤ) : ℚ) :=
    Int.cast_le.mpr hr
  linarith

/-- When the parsed intervals already form an adjacent chain and the
requested `stop` does not pass the last interval, the interval loop
reproduces them unchanged. -/
theorem fillTail_id (rest : List Inter) :
    ∀ (a : Inter) (stop : Int) (d : ℚ) (lst : Inter),
    List.Chain' (fun I J => J.s = I.e + 1) (a :: rest) →
    (a :: rest).getLast? = some lst → stop ≤ lst.e →
    fillTail a rest stop d = a :: rest := by
  induction rest with
  | nil =>
    intro a stop d lst _ hl hle
    simp only [List.getLast?_singleton, Option.some.injEq] at hl
    subst hl
    show (if stop > a.e then [a, ⟨a.e + 1, stop, d⟩] else [a]) = [a]
    rw [if_neg (show ¬ stop > a.e by omega)]
  | cons b rest' ih =>
    intro a stop d lst hch hl hle
    have hbs : b.s = a.e + 1 := (List.chain'_cons.mp hch).1
    have hl2 : (b :: rest').getLast? = some lst := by
      rw [List.getLast?_cons_cons] at hl
      exact hl
    simp only [fillTail, if_neg (show ¬ b.s - a.e > 1 by omega), List.nil_append]
    rw [ih b stop d lst (List.chain'_cons.mp hch).2 hl2 hle]

/-- The emission loop of `timecode_v1_to_v2`, run over intervals all at
fps `f` and seeded with an accumulator whose last entry is the current
offset, succeeds and produces consecutive differences within `1/1000`
of `1000/f`. -/
theorem emitLoop_chain (f : ℚ) (L : List Inter) :
    ∀ (off : ℚ) (acc : List ℚ),
    (∀ I ∈ L, I.fps = f ∧ I.s ≤ I.e) →
    acc.getLast? = some off →
    List.Chain' (fun t u => |u - t - 1000 / f| ≤ 1 / 1000) acc →
    ∃ v2, emitLoop L off acc = some v2 ∧
      List.Chain' (fun t u => |u - t - 1000 / f| ≤ 1 / 1000) v2 := by
  induction L with
  | nil =>
    intro off acc _ _ hc
    exact ⟨acc, rfl, hc⟩
  | cons I rest ih =>
    intro off acc hIs hlast hc
    have hfps : I.fps = f := (hIs I (List.mem_cons_self _ _)).1
    have hse : I.s ≤ I.e := (hIs I (List.mem_cons_self _ _)).2
    obtain ⟨m, hm⟩ : ∃ m, (I.e - I.s + 1).toNat = m + 1 := by
      refine ⟨(I.e - I.s + 1).toNat - 1, ?_⟩
      omega
    have hchunk_ne : emitInter I off ≠ [] := by
      unfold emitInter
      rw [hm, List.range_succ_eq_map]
      simp
    have hR : ∀ i j : ℚ, i + 1000 / f = j →
        |round3 j - round3 i - 1000 / f| ≤ 1 / 1000 := by
      intro i j hij
      have h1 := abs_le.mp (round3_err i)
      have h2 := abs_le.mp (round3_err j)
      have heq : round3 j - round3 i - 1000 / f =
          (round3 j - j) - (round3 i - i) := by
        rw [← hij]
        ring
      rw [heq, abs_le]
      constructor <;> linarith [h1.1, h1.2, h2.1, h2.2]
    have hchain_chunk : List.Chain'
        (fun t u => |u - t - 1000 / f| ≤ 1 / 1000) (emitInter I off) := by
      unfold emitInter
      rw [hm]
      apply List.chain'_map_of_chain' (R := fun a b : Nat => b = a + 1)
      · intro a b hab
        subst hab
        apply hR
        rw [hfps]
        push_cast
        ring
      · rw [show m + 1 = Nat.succ m from rfl, List.chain'_range_succ]
        intro k _
        rfl
    have hhd : (emitInter I off).head? =
        some (round3 (1000 / I.fps * ((0 : ℚ) + 1) + off)) := by
      unfold emitInter
      rw [hm, List.range_succ_eq_map]
      rfl
    have hhead_chunk : ∀ y ∈ (emitInter I off).head?,
        |y - off - 1000 / f| ≤ 1 / 1000 := by
      intro y hy
      rw [hhd] at hy
      simp only [Option.mem_def, Option.some.injEq] at hy
      subst hy
      have hj : off + 1000 / f = 1000 / I.fps * ((0 : ℚ) + 1) + off := by
        rw [hfps]
        ring
      have heq : round3 (1000 / I.fps * ((0 : ℚ) + 1) + off) - off - 1000 / f =
          round3 (1000 / I.fps * ((0 : ℚ) + 1) + off) -
            (1000 / I.fps * ((0 : ℚ) + 1) + off) := by
        rw [← hj]
        ring
      rw [heq]
      exact (round3_err _).trans (by norm_num)
    have hacc2 : List.Chain' (fun t u => |u - t - 1000 / f| ≤ 1 / 1000)
        (acc ++ emitInter I off) := by
      rw [List.chain'_append]
      refine ⟨hc, hchain_chunk, ?_⟩
      intro x hx y hy
      rw [hlast] at hx
      simp only [Option.mem_def, Option.some.injEq] at hx
      subst hx
      exact hhead_chunk y hy
    obtain ⟨l, hl⟩ : ∃ l, (acc ++ emitInter I off).getLast? = some l := by
      cases h : (acc ++ emitInter I off).getLast? with
      | none =>
        rw [List.getLast?_eq_none_iff] at h
        exact absurd (List.append_eq_nil.mp h).2 hchunk_ne
      | some l => exact ⟨l, rfl⟩
    obtain ⟨v2, hv2, hch2⟩ :=
      ih l (acc ++ emitInter I off)
        (fun I' h => hIs I' (List.mem_cons_of_mem _ h)) hl hacc2
    refine ⟨v2, ?_, hch2⟩
    show emitLoop (I :: rest) off acc = some v2
    unfold emitLoop
    rw [hl]
    exact hv2

end AvsP

namespace AvsP

/-- C5: for a valid v1 interval list covering `[0, N]` at one constant
fps `f`, converting with `timecode_v1_to_v2` (offset `0`, range
`[0, N]`, any default fps) succeeds, and every pair of consecutive
emitted timestamps differs from `1000/f` ms by at most `0.001`. -/
theorem claim_C5_constant_fps_diffs (inters : List Inter) (f : ℚ) (N : Int)
    (first lastI : Inter) (d : ℚ)
    (hhd : inters.head? = some first) (hfs : first.s = 0)
    (hlst : inters.getLast? = some lastI) (hN : lastI.e = N)
    (hchain : List.Chain' (fun I J => J.s = I.e + 1) inters)
    (hwf : ∀ I ∈ inters, I.fps = f ∧ I.s ≤ I.e)
    (_hf : 0 < f) :
    ∃ v2, timecode_v1_to_v2_core inters 0 0 N d = some v2 ∧
      List.Chain' (fun t u => |u - t - 1000 / f| ≤ 1 / 1000) v2 := by
  match inters, hhd with
  | a :: rest, hhd =>
    have ha : a = first := by
      simp only [List.head?_cons, Option.some.injEq] at hhd
      exact hhd
    subst ha
    have hft : fillTail a rest N d = a :: rest :=
      fillTail_id rest a N d lastI hchain hlst (by omega)
    have hAI : allInters (a :: rest) 0 N d = some (a :: rest) := by
      simp only [allInters]
      rw [if_neg (show ¬ (0 : Int) < a.s by omega), List.nil_append, hft]
    obtain ⟨v2, hv2, hch⟩ := emitLoop_chain f (a :: rest) 0 [0] hwf
      (by simp) (List.chain'_singleton _)
    refine ⟨v2, ?_, hch⟩
    unfold timecode_v1_to_v2_core
    rw [hAI]
    show emitLoop (a :: rest) 0 (if (0 : ℚ) = 0 then [0] else []) = some v2
    rw [if_pos rfl]
    exact hv2

/-- Witness for C5: one interval `(0, 2, 24)` covering `[0, 2]` at
`f = 24`. -/
theorem claim_C5_witness :
    ∃ v2, timecode_v1_to_v2_core [⟨0, 2, 24⟩] 0 0 2 30 = some v2 ∧
      List.Chain' (fun t u => |u - t - 1000 / 24| ≤ 1 / 1000) v2 :=
  claim_C5_constant_fps_diffs [⟨0, 2, 24⟩] 24 2 ⟨0, 2, 24⟩ ⟨0, 2, 24⟩ 30
    rfl rfl rfl rfl (List.chain'_singleton _)
    (by
      intro I hI
      simp only [List.mem_singleton] at hI
      subst hI
      exact ⟨rfl, by norm_num⟩)
    (by norm_num)

end AvsP

namespace AvsP

/-! ### C1: monotonicity of the cutter's output -/

theorem pyGet_neg_none {α : Type} (l : List α) (i : Int) (hi : i < 0)
    (h : (l.length : Int) + i < 0) : pyGet l i = none := by
  simp only [pyGet, if_pos hi]
  rw [if_neg (by omega)]

theorem pySliceNorm_eq (len : Nat) (i : Int) (h1 : 0 ≤ i)
    (h2 : i.toNat ≤ len) : pySliceNorm len i = i.toNat := by
  simp only [pySliceNorm, if_neg (not_lt.mpr h1)]
  omega

/-- In a sorted list, every element of `take (m+1)` is at most the
element at index `m`. -/
theorem mem_take_le_get (l : List ℚ) (m : Nat) (hm : m < l.length)
    (hpw : List.Pairwise (· ≤ ·) l) :
    ∀ x ∈ l.take (m + 1), x ≤ l.get ⟨m, hm⟩ := by
  intro x hx
  obtain ⟨⟨i, hi⟩, hgx⟩ := List.mem_iff_get.mp hx
  have hi2 : i < m + 1 := lt_of_lt_of_le hi (by
    rw [List.length_take]
    exact min_le_left _ _)
  have hi3 : i < l.length := by
    have := hi
    rw [List.length_take] at this
    omega
  have hval : x = l.get ⟨i, hi3⟩ := by
    rw [← hgx]
    simp [List.get_eq_getElem, List.getElem_take]
  rcases Nat.lt_or_ge i m with hlt | hge
  · rw [hval]
    exact List.pairwise_iff_get.mp hpw ⟨i, hi3⟩ ⟨m, hm⟩ hlt
  · have him : i = m := by omega
    subst him
    rw [hval]

/-- In a sorted list, every element of `drop (m+1)` is at least the
element at index `m`. -/
theorem mem_drop_ge_get (l : List ℚ) (m : Nat) (hm : m < l.length)
    (hpw : List.Pairwise (· ≤ ·) l) :
    ∀ x ∈ l.drop (m + 1), l.get ⟨m, hm⟩ ≤ x := by
  have hpw2 : List.Pairwise (· ≤ ·) (l.take (m + 1) ++ l.drop (m + 1)) := by
    rw [List.take_append_drop]
    exact hpw
  have cross := (List.pairwise_append.mp hpw2).2.2
  have hmemt : l.get ⟨m, hm⟩ ∈ l.take (m + 1) := by
    apply List.mem_iff_get.mpr
    refine ⟨⟨m, ?_⟩, ?_⟩
    · rw [List.length_take]
      omega
    · simp [List.get_eq_getElem, List.getElem_take]
  exact fun x hx => cross _ hmemt x hx

/-- Specification of one cutter step on a sorted timestamp list for an
in-range trim: the possibly-extended list stays sorted, keeps its
indexed reads, and the emitted chunk is the shifted, formatted slice. -/
theorem cutStep_spec (lines : List ℚ) (pe : ℚ) (s e : Int)
    (hs0 : 0 ≤ s) (hse : s ≤ e) (hlen : e < (lines.length : Int))
    (hpw : List.Pairwise (· ≤ ·) lines)
    (hok : e + 1 < (lines.length : Int) ∨ 2 ≤ lines.length) :
    ∃ (lines2 : List ℚ) (tst tet : ℚ),
      cutStep lines pe (s, e) = some (lines2, tet - (tst - pe),
        ((lines2.take ((e + 1).toNat + 1)).drop (s.toNat + 1)).map
          (fun q => round3 (q - (tst - pe)))) ∧
      List.Pairwise (· ≤ ·) lines2 ∧
      lines.length ≤ lines2.length ∧
      (e + 1).toNat < lines2.length ∧
      lines2.get? s.toNat = some tst ∧
      lines2.get? (e + 1).toNat = some tet := by
  have hsn : s.toNat < lines.length := by omega
  have hget_s : pyGet lines s = some (lines.get ⟨s.toNat, hsn⟩) := by
    rw [pyGet_nonneg _ _ hs0]
    exact List.get?_eq_get hsn
  by_cases hc : e + 1 < (lines.length : Int)
  · -- no extrapolation
    have hen : (e + 1).toNat < lines.length := by omega
    have hget_e : pyGet lines (e + 1) = some (lines.get ⟨(e + 1).toNat, hen⟩) := by
      rw [pyGet_nonneg _ _ (by omega)]
      exact List.get?_eq_get hen
    have hslice : pySlice lines (s + 1) (e + 2) =
        (lines.take ((e + 1).toNat + 1)).drop (s.toNat + 1) := by
      unfold pySlice
      rw [pySliceNorm_eq _ _ (by omega) (by omega),
        pySliceNorm_eq _ _ (by omega) (by omega)]
      rw [show (e + 2).toNat = (e + 1).toNat + 1 by omega,
        show (s + 1).toNat = s.toNat + 1 by omega]
    refine ⟨lines, lines.get ⟨s.toNat, hsn⟩, lines.get ⟨(e + 1).toNat, hen⟩,
      ?_, hpw, le_rfl, hen, List.get?_eq_get hsn, List.get?_eq_get hen⟩
    simp only [cutStep, hget_s, hget_e, hslice]
  · -- extrapolation
    have hel : e + 1 = (lines.length : Int) := by omega
    have h2 : 2 ≤ lines.length := by
      rcases hok with h | h
      · omega
      · exact h
    have h1l : lines.length - 1 < lines.length := by omega
    have h2l : lines.length - 2 < lines.length := by omega
    have hget_e : pyGet lines (e + 1) = none := pyGet_out _ _ (by omega)
    have hga : pyGet lines (-1) = some (lines.get ⟨lines.length - 1, h1l⟩) := by
      rw [pyGet_neg lines (-1) (by norm_num) (by omega)]
      rw [show ((lines.length : Int) + (-1)).toNat = lines.length - 1 by omega]
      exact List.get?_eq_get h1l
    have hgb : pyGet lines (-2) = some (lines.get ⟨lines.length - 2, h2l⟩) := by
      rw [pyGet_neg lines (-2) (by norm_num) (by omega)]
      rw [show ((lines.length : Int) + (-2)).toNat = lines.length - 2 by omega]
      exact List.get?_eq_get h2l
    set a := lines.get ⟨lines.length - 1, h1l⟩ with ha
    set b := lines.get ⟨lines.length - 2, h2l⟩ with hb
    have hba : b ≤ a := by
      have := List.pairwise_iff_get.mp hpw ⟨lines.length - 2, h2l⟩
        ⟨lines.length - 1, h1l⟩ (by simp; omega)
      exact this
    have hub : ∀ x ∈ lines, x ≤ a := by
      intro x hx
      have hx2 : x ∈ lines.take (lines.length - 1 + 1) := by
        rw [show lines.length - 1 + 1 = lines.length by omega,
          List.take_length]
        exact hx
      exact mem_take_le_get lines (lines.length - 1) h1l hpw x hx2
    have hpw2 : List.Pairwise (· ≤ ·) (lines ++ [2 * a - b]) := by
      rw [List.pairwise_append]
      refine ⟨hpw, List.pairwise_singleton _ _, ?_⟩
      intro x hx y hy
      simp only [List.mem_singleton] at hy
      subst hy
      have := hub x hx
      linarith
    have hlen2 : (lines ++ [2 * a - b]).length = lines.length + 1 := by
      simp
    have hen2 : (e + 1).toNat < (lines ++ [2 * a - b]).length := by
      rw [hlen2]
      omega
    have hget_s2 : (lines ++ [2 * a - b]).get? s.toNat =
        some (lines.get ⟨s.toNat, hsn⟩) := by
      rw [List.get?_append hsn]
      exact List.get?_eq_get hsn
    have hget_e2 : (lines ++ [2 * a - b]).get? (e + 1).toNat =
        some (2 * a - b) := by
      have hidx : (e + 1).toNat = lines.length := by omega
      rw [hidx]
      rw [List.get?_append_right le_rfl]
      simp
    have hslice : pySlice (lines ++ [2 * a - b]) (s + 1) (e + 2) =
        ((lines ++ [2 * a - b]).take ((e + 1).toNat + 1)).drop (s.toNat + 1) := by
      unfold pySlice
      rw [pySliceNorm_eq _ _ (by omega) (by rw [hlen2]; omega),
        pySliceNorm_eq _ _ (by omega) (by rw [hlen2]; omega)]
      rw [show (e + 2).toNat = (e + 1).toNat + 1 by omega,
        show (s + 1).toNat = s.toNat + 1 by omega]
    refine ⟨lines ++ [2 * a - b], lines.get ⟨s.toNat, hsn⟩, 2 * a - b,
      ?_, hpw2, by omega, hen2, hget_s2, hget_e2⟩
    simp only [cutStep, hget_s, hget_e, hga, hgb, hslice]

end AvsP

namespace AvsP

/-- Main induction for C1: over a sorted timestamp list and in-range
trims, the cutter loop (when it succeeds) emits a sorted sequence whose
entries all lie at or above the formatted incoming `prev_end`. -/
theorem cutLoop_mono (trims : List (Int × Int)) :
    ∀ (lines : List ℚ) (pe : ℚ) (out : List ℚ),
    List.Pairwise (· ≤ ·) lines →
    (∀ t ∈ trims, 0 ≤ t.1 ∧ t.1 ≤ t.2 ∧ t.2 < (lines.length : Int)) →
    cutLoop trims lines pe = some out →
    List.Pairwise (· ≤ ·) out ∧ ∀ y ∈ out, round3 pe ≤ y := by
  induction trims with
  | nil =>
    intro lines pe out _ _ hout
    simp only [cutLoop, Option.some.injEq] at hout
    subst hout
    exact ⟨List.Pairwise.nil, by simp⟩
  | cons t rest ih =>
    intro lines pe out hpw htr hout
    obtain ⟨s, e⟩ := t
    obtain ⟨hs0, hse, hlen⟩ := htr (s, e) (List.mem_cons_self _ _)
    by_cases hok : e + 1 < (lines.length : Int) ∨ 2 ≤ lines.length
    case neg =>
      exfalso
      push_neg at hok
      obtain ⟨hok1, hok2⟩ := hok
      have hsn : s.toNat < lines.length := by omega
      have hget_s : pyGet lines s = some (lines.get ⟨s.toNat, hsn⟩) := by
        rw [pyGet_nonneg _ _ hs0]
        exact List.get?_eq_get hsn
      have hget_e : pyGet lines (e + 1) = none := pyGet_out _ _ (by omega)
      have h1l : lines.length - 1 < lines.length := by omega
      have hga : pyGet lines (-1) = some (lines.get ⟨lines.length - 1, h1l⟩) := by
        rw [pyGet_neg lines (-1) (by norm_num) (by omega)]
        rw [show ((lines.length : Int) + (-1)).toNat = lines.length - 1 by omega]
        exact List.get?_eq_get h1l
      have hgb : pyGet lines (-2) = none :=
        pyGet_neg_none _ _ (by norm_num) (by omega)
      simp only [cutLoop, cutStep, hget_s, hget_e, hga, hgb] at hout
      exact Option.noConfusion hout
    case pos =>
      obtain ⟨lines2, tst, tet, hstep, hpw2, hlen2, hen2, hget_s2, hget_e2⟩ :=
        cutStep_spec lines pe s e hs0 hse hlen hpw hok
      simp only [cutLoop, hstep] at hout
      cases h2 : cutLoop rest lines2 (tet - (tst - pe)) with
      | none =>
        rw [h2] at hout
        exact Option.noConfusion hout
      | some tail =>
        rw [h2] at hout
        simp only [Option.some.injEq] at hout
        subst hout
        obtain ⟨htail_pw, htail_lb⟩ := ih lines2 (tet - (tst - pe)) tail hpw2
          (by
            intro t' ht'
            obtain ⟨ha1, ha2, ha3⟩ := htr t' (List.mem_cons_of_mem _ ht')
            exact ⟨ha1, ha2, by omega⟩)
          h2
        have hkey : s.toNat < (e + 1).toNat := by omega
        have hsn2 : s.toNat < lines2.length := by omega
        have htst : tst = lines2.get ⟨s.toNat, hsn2⟩ := by
          rw [List.get?_eq_get hsn2] at hget_s2
          exact (Option.some.injEq _ _).mp hget_s2.symm
        have htet : tet = lines2.get ⟨(e + 1).toNat, hen2⟩ := by
          rw [List.get?_eq_get hen2] at hget_e2
          exact (Option.some.injEq _ _).mp hget_e2.symm
        have htt : tst ≤ tet := by
          rw [htst, htet]
          exact List.pairwise_iff_get.mp hpw2 _ _ hkey
        -- slice facts
        have hslice_pw : List.Pairwise (· ≤ ·)
            ((lines2.take ((e + 1).toNat + 1)).drop (s.toNat + 1)) :=
          List.Pairwise.sublist
            ((List.drop_sublist _ _).trans (List.take_sublist _ _)) hpw2
        have hslice_lb : ∀ x ∈ (lines2.take ((e + 1).toNat + 1)).drop (s.toNat + 1),
            tst ≤ x := by
          intro x hx
          have hlen_take : s.toNat < (lines2.take ((e + 1).toNat + 1)).length := by
            rw [List.length_take]
            omega
          have hpw_take : List.Pairwise (· ≤ ·) (lines2.take ((e + 1).toNat + 1)) :=
            List.Pairwise.sublist (List.take_sublist _ _) hpw2
          have hgt_take : (lines2.take ((e + 1).toNat + 1)).get ⟨s.toNat, hlen_take⟩ =
              lines2.get ⟨s.toNat, hsn2⟩ := by
            simp [List.get_eq_getElem, List.getElem_take]
          have := mem_drop_ge_get _ s.toNat hlen_take hpw_take x hx
          rw [hgt_take] at this
          rw [htst]
          exact this
        have hslice_ub : ∀ x ∈ (lines2.take ((e + 1).toNat + 1)).drop (s.toNat + 1),
            x ≤ tet := by
          intro x hx
          have hx2 : x ∈ lines2.take ((e + 1).toNat + 1) :=
            List.drop_subset _ _ hx
          have := mem_take_le_get lines2 ((e + 1).toNat) hen2 hpw2 x hx2
          rw [htet]
          exact this
        -- chunk facts
        have hchunk_pw : List.Pairwise (· ≤ ·)
            (((lines2.take ((e + 1).toNat + 1)).drop (s.toNat + 1)).map
              (fun q => round3 (q - (tst - pe)))) := by
          refine List.Pairwise.map _ ?_ hslice_pw
          intro x y hxy
          exact round3_mono (by linarith)
        have hchunk_lb : ∀ y ∈ ((lines2.take ((e + 1).toNat + 1)).drop
            (s.toNat + 1)).map (fun q => round3 (q - (tst - pe))),
            round3 pe ≤ y := by
          intro y hy
          obtain ⟨x, hx, rfl⟩ := List.mem_map.mp hy
          have := hslice_lb x hx
          exact round3_mono (by linarith)
        have hchunk_ub : ∀ y ∈ ((lines2.take ((e + 1).toNat + 1)).drop
            (s.toNat + 1)).map (fun q => round3 (q - (tst - pe))),
            y ≤ round3 (tet - (tst - pe)) := by
          intro y hy
          obtain ⟨x, hx, rfl⟩ := List.mem_map.mp hy
          have := hslice_ub x hx
          exact round3_mono (by linarith)
        constructor
        · rw [List.pairwise_append]
          refine ⟨hchunk_pw, htail_pw, ?_⟩
          intro x hx y hy
          exact le_trans (hchunk_ub x hx) (htail_lb y hy)
        · intro y hy
          rcases List.mem_append.mp hy with hy1 | hy2
          · exact hchunk_lb y hy1
          · have hpe : pe ≤ tet - (tst - pe) := by linarith
            exact le_trans (round3_mono hpe) (htail_lb y hy2)

end AvsP

namespace AvsP

/-- C1: on a non-decreasing v2 timestamp list and ordered,
non-overlapping trims whose frames lie within the list, the cutter's
output (when produced) is the `0.000` seed followed by timestamps that
are monotone non-decreasing — each emitted timestamp is at least the
previous one. -/
theorem claim_C1_cutter_monotone (lines : List ℚ) (trims : List (Int × Int))
    (out : List ℚ)
    (hsorted : List.Chain' (· ≤ ·) lines)
    (htrims : ∀ t ∈ trims, 0 ≤ t.1 ∧ t.1 ≤ t.2 ∧ t.2 < (lines.length : Int))
    (_hord : List.Chain' (fun t u => t.2 < u.1) trims)
    (hout : cutTimecode lines trims = some out) :
    out.head? = some 0 ∧ List.Chain' (· ≤ ·) out := by
  have hpw : List.Pairwise (· ≤ ·) lines := List.chain'_iff_pairwise.mp hsorted
  unfold cutTimecode at hout
  cases hbody : cutLoop trims lines 0 with
  | none =>
    rw [hbody] at hout
    exact Option.noConfusion hout
  | some body =>
    rw [hbody] at hout
    simp only [Option.map_some', Option.some.injEq] at hout
    subst hout
    obtain ⟨hbpw, hblb⟩ := cutLoop_mono trims lines 0 body hpw htrims hbody
    refine ⟨rfl, ?_⟩
    rw [List.chain'_iff_pairwise]
    refine List.Pairwise.cons ?_ hbpw
    intro y hy
    have h1 := hblb y hy
    have h0 : round3 0 = 0 := by
      norm_num [round3]
    rw [h0] at h1
    exact h1

/-- Witness for C1 on the C3 data: the output exists, starts with
`0.000` and is monotone. -/
theorem claim_C1_witness :
    cutTimecode [0, 10, 20, 30, 40, 50] [(0, 1), (3, 4)]
        = some [0, 10, 20, 30, 40] ∧
      ([0, 10, 20, 30, 40] : List ℚ).head? = some 0 ∧
      List.Chain' (· ≤ ·) ([0, 10, 20, 30, 40] : List ℚ) := by
  have heval : cutTimecode [0, 10, 20, 30, 40, 50] [(0, 1), (3, 4)]
      = some [0, 10, 20, 30, 40] := by
    simp only [cutTimecode, cutLoop, cutStep, pyGet, pySlice, pySliceNorm]
    simp
    norm_num [round3, round_eq]
  refine ⟨heval, claim_C1_cutter_monotone _ _ _ ?_ ?_ ?_ heval⟩
  · simp only [List.chain'_cons, List.chain'_singleton, and_true]
    norm_num
  · intro t ht
    simp only [List.mem_cons, List.not_mem_nil, or_false] at ht
    rcases ht with rfl | rfl <;> norm_num
  · simp only [List.chain'_cons, List.chain'_singleton, and_true]
    norm_num

end AvsP

namespace AvsP

/-! ### C8 (amended): end-overrun trims extrapolate and truncate -/

/-- A Python slice bound at or past the list length clamps to the
length. -/
theorem pySliceNorm_ge (len : Nat) (i : Int) (h : (len : Int) ≤ i) :
    pySliceNorm len i = len := by
  rw [pySliceNorm, if_neg (not_lt.mpr (le_trans (by positivity) h))]
  exact min_eq_right (by omega)

/-- C8 amended: a trim range extending past the end of the timestamp
list beyond the one-entry-short case (end frame at or past the list
length, start frame within the list, list of at least two entries) does
NOT make the cutter fail: the `except IndexError` branch extrapolates
the single entry `2*last − second_last`, appends it, uses it as the
trim's end time, and the emitted slice is silently truncated to the
available timestamps — the whole remainder of the extended list, fewer
entries than the trim requested — instead of a `RangeError`. -/
theorem claim_C8_amended_end_overrun_truncates (lines : List ℚ) (pe : ℚ)
    (s e : Int) (hs0 : 0 ≤ s) (hs : s < (lines.length : Int))
    (he : (lines.length : Int) ≤ e) (h2 : 2 ≤ lines.length) :
    ∃ a b tst, pyGet lines (-1) = some a ∧ pyGet lines (-2) = some b ∧
      pyGet lines s = some tst ∧
      cutStep lines pe (s, e) = some (lines ++ [2 * a - b],
        (2 * a - b) - (tst - pe),
        ((lines ++ [2 * a - b]).drop (s.toNat + 1)).map
          (fun q => round3 (q - (tst - pe)))) := by
  have h1l : lines.length - 1 < lines.length := by omega
  have h2l : lines.length - 2 < lines.length := by omega
  have hsn : s.toNat < lines.length := by omega
  have hga : pyGet lines (-1) = some (lines.get ⟨lines.length - 1, h1l⟩) := by
    rw [pyGet_neg lines (-1) (by norm_num) (by omega)]
    rw [show ((lines.length : Int) + (-1)).toNat = lines.length - 1 by omega]
    exact List.get?_eq_get h1l
  have hgb : pyGet lines (-2) = some (lines.get ⟨lines.length - 2, h2l⟩) := by
    rw [pyGet_neg lines (-2) (by norm_num) (by omega)]
    rw [show ((lines.length : Int) + (-2)).toNat = lines.length - 2 by omega]
    exact List.get?_eq_get h2l
  have hgt : pyGet lines s = some (lines.get ⟨s.toNat, hsn⟩) := by
    rw [pyGet_nonneg lines s hs0]
    exact List.get?_eq_get hsn
  have hgn : pyGet lines (e + 1) = none := pyGet_out lines (e + 1) (by omega)
  set a := lines.get ⟨lines.length - 1, h1l⟩ with ha
  set b := lines.get ⟨lines.length - 2, h2l⟩ with hb
  have hlen2 : (lines ++ [2 * a - b]).length = lines.length + 1 := by
    simp
  have hslice : pySlice (lines ++ [2 * a - b]) (s + 1) (e + 2) =
      (lines ++ [2 * a - b]).drop (s.toNat + 1) := by
    unfold pySlice
    rw [pySliceNorm_ge (lines ++ [2 * a - b]).length (e + 2)
      (by rw [hlen2]; push_cast; omega)]
    rw [pySliceNorm_eq (lines ++ [2 * a - b]).length (s + 1)
      (by omega) (by rw [hlen2]; omega)]
    rw [List.take_length, show (s + 1).toNat = s.toNat + 1 by omega]
  refine ⟨a, b, lines.get ⟨s.toNat, hsn⟩, hga, hgb, hgt, ?_⟩
  simp only [cutStep, hgt, hgn, hga, hgb, hslice]

/-- Witness for the amended C8 at the counterexample's input: trim
`(0, 4)` on `[0, 10, 20]` extrapolates `2*20 − 10 = 30` and emits the
truncated slice `[10, 20, 30]` — three entries where the trim asked for
five frames. -/
theorem claim_C8_amended_witness :
    ∃ a b tst, pyGet ([0, 10, 20] : List ℚ) (-1) = some a ∧
      pyGet ([0, 10, 20] : List ℚ) (-2) = some b ∧
      pyGet ([0, 10, 20] : List ℚ) 0 = some tst ∧
      cutStep [0, 10, 20] 0 (0, 4) = some ([0, 10, 20] ++ [2 * a - b],
        (2 * a - b) - (tst - 0),
        (([0, 10, 20] ++ [2 * a - b]).drop ((0 : Int).toNat + 1)).map
          (fun q => round3 (q - (tst - 0)))) :=
  claim_C8_amended_end_overrun_truncates [0, 10, 20] 0 0 4 (by norm_num)
    (by norm_num) (by norm_num) (by norm_num)

end AvsP
